import Mathlib

/-!
Shallow embedding of the numeric core of the `toulligqc` plotting-support
module (`toulligqc/plotly_graph_common.py`): the box-plot summary
computation (`_precompute_boxplot_values`), the histogram smoothing helper
(`_smooth_data`), the resampling helper (`_interpolate`) and the
time-binning pipeline of `_over_time_graph`.

Modelling conventions:
* Python floats are modelled as exact rationals; a floating NaN is
  modelled as `none` in `Option ℚ` (the type `RVal` below).
* A call that raises (`ValueError` / `IndexError`) is modelled by an
  `Option`-returning function producing `none`.
* `scipy.ndimage.gaussian_filter1d` is an external library call whose
  kernel weights are irrational; it is modelled as an explicit function
  parameter `gf` of the pipelines that use it (theorems assume of it only
  what the library documents, e.g. that it preserves length).
* `numpy` reductions (`ndarray.min`, `np.nanmin`), `np.linspace`,
  `np.digitize`, `np.searchsorted`, `np.histogram(density=True)`,
  `np.percentile` / `pandas.quantile` (linear interpolation) and
  `np.sort` are embedded below, including their NaN comparison semantics
  (any comparison with NaN is false in the C order used by `digitize`'s
  monotonicity check, while sorting and `searchsorted` treat NaN as the
  largest value).
* Exact float division by zero (which would give `inf`/`nan`) has no
  rational counterpart; in the density computation it only occurs for
  degenerate ranges, and the rational convention `q / 0 = 0` is used
  there.  No theorem below depends on those degenerate values.
-/

/-- A Python float value: `some q` is the real number `q`, `none` is NaN. -/
abbrev RVal := Option ℚ

/-- C `<` on doubles: any comparison involving NaN is false. -/
def cLt (a b : RVal) : Bool :=
  match a, b with
  | some x, some y => decide (x < y)
  | _, _ => false

/-- C `>` on doubles, via `cLt`. -/
def cGt (a b : RVal) : Bool := cLt b a

/-- C `==` on doubles: NaN is not equal to anything, including itself. -/
def cEq (a b : RVal) : Bool :=
  match a, b with
  | some x, some y => decide (x = y)
  | _, _ => false

/-- The strict order used by numpy's sort and `searchsorted`
(`npy_sort` `LT`): NaN compares as the largest value. -/
def ssLt (a b : RVal) : Bool :=
  match a, b with
  | some x, some y => decide (x < y)
  | some _, none => true
  | none, _ => false

/-- Complement order of `ssLt`: the non-strict "less or equal" with NaN
largest, the order in which `np.sort` output is non-decreasing. -/
def ssLe (a b : RVal) : Bool := !(ssLt b a)

/-- `pandas.Series.dropna`: the non-NaN values, in order. -/
def dropna (l : List RVal) : List ℚ := l.filterMap id

/-- Python `min` over a non-empty list of reals (`0` junk on `[]`,
which raises in Python and is never reached below). -/
def pyMin (l : List ℚ) : ℚ :=
  match l with
  | [] => 0
  | h :: t => t.foldl min h

/-- Python `max` over a non-empty list of reals. -/
def pyMax (l : List ℚ) : ℚ :=
  match l with
  | [] => 0
  | h :: t => t.foldl max h

/-- `ndarray.min`: `none` (raise) on an empty array, NaN if any entry is
NaN, otherwise the minimum. -/
def arrMin (xs : List RVal) : Option RVal :=
  match xs with
  | [] => none
  | _ => if xs.any Option.isNone then some none else some (some (pyMin (dropna xs)))

/-- `ndarray.max`: `none` (raise) on an empty array, NaN if any entry is
NaN, otherwise the maximum. -/
def arrMax (xs : List RVal) : Option RVal :=
  match xs with
  | [] => none
  | _ => if xs.any Option.isNone then some none else some (some (pyMax (dropna xs)))

/-- `np.nanmin`: `none` (raise) on an empty array, NaN (with a warning)
if there is no non-NaN entry, otherwise the minimum of the non-NaN
entries. -/
def nanMin (xs : List RVal) : Option RVal :=
  match xs with
  | [] => none
  | _ =>
    match dropna xs with
    | [] => some none
    | l => some (some (pyMin l))

/-- `np.nanmax`, analogous to `nanMin`. -/
def nanMax (xs : List RVal) : Option RVal :=
  match xs with
  | [] => none
  | _ =>
    match dropna xs with
    | [] => some none
    | l => some (some (pyMax l))

/-- Sorting a list of reals ascending (`np.sort` / pandas internal sort on
NaN-free data: the sorted permutation is unique, so any correct sort
models it). -/
def sortedQ (l : List ℚ) : List ℚ := l.insertionSort (· ≤ ·)

/-- The linear-interpolation ("type 7") quantile of a sorted non-empty
sample, the method used by `pandas.Series.quantile` and `np.percentile`:
with `n` points and virtual index `h = (n-1)·q`, interpolate linearly
between the order statistics at `⌊h⌋` and `⌊h⌋ + 1`. -/
def quantileSorted (s : List ℚ) (q : ℚ) : ℚ :=
  let n := s.length
  let h : ℚ := ((n : ℚ) - 1) * q
  let lo : ℕ := (⌊h⌋).toNat
  let lov := s.getD lo 0
  let hiv := s.getD (lo + 1) lov
  lov + (h - (lo : ℚ)) * (hiv - lov)

/-- `np.percentile(l, q)` with `q` in `0..100`: NaN as soon as the data
contains a NaN, otherwise the type-7 quantile of the sorted data. -/
def npPercentile (l : List RVal) (q : ℚ) : RVal :=
  if l.any Option.isNone then none
  else some (quantileSorted (sortedQ (dropna l)) (q / 100))

/-- The summary record built by `_precompute_boxplot_values`. -/
structure BoxplotValues where
  min : ℚ
  lowerfence : ℚ
  q1 : ℚ
  median : ℚ
  q3 : ℚ
  upperfence : ℚ
  max : ℚ
  notchspan : ℝ

/-- The all-zero record returned for an empty (post-dropna) sample. -/
def zeroBoxplotValues : BoxplotValues := ⟨0, 0, 0, 0, 0, 0, 0, 0⟩

/-- `_precompute_boxplot_values(y)`: drop NaNs; on an empty result return
the all-zero record; otherwise compute the type-7 quartiles, the IQR
fences clipped to the observed extrema, and the notch span
`1.57 · iqr / sqrt(len(y))`. -/
noncomputable def precompute_boxplot_values (y : List RVal) : BoxplotValues :=
  let y' := dropna y
  if y'.length = 0 then zeroBoxplotValues
  else
    let s := sortedQ y'
    let q1 := quantileSorted s (1/4)
    let q3 := quantileSorted s (3/4)
    let iqr := q3 - q1
    let upper_fence := q3 + (3/2) * iqr
    let lower_fence := q1 - (3/2) * iqr
    ⟨pyMin y',
     max lower_fence (pyMin y'),
     q1,
     quantileSorted s (1/2),
     q3,
     min upper_fence (pyMax y'),
     pyMax y',
     (157/100 : ℝ) * (iqr : ℝ) / Real.sqrt (y'.length)⟩

/-! ### Elementary facts about `pyMin`, `pyMax` and sorting -/

theorem foldl_min_le (l : List ℚ) (a : ℚ) : ∀ x ∈ a :: l, l.foldl min a ≤ x := by
  induction l generalizing a with
  | nil => intro x hx; simp at hx; simp [hx]
  | cons b t ih =>
    intro x hx
    have hbase : t.foldl min (min a b) ≤ min a b := ih (min a b) (min a b) (by simp)
    rw [List.mem_cons] at hx
    rcases hx with h | hx
    · subst h
      simpa using le_trans hbase (min_le_left _ _)
    · rw [List.mem_cons] at hx
      rcases hx with h | hx
      · subst h
        simpa using le_trans hbase (min_le_right _ _)
      · exact ih (min a b) x (List.mem_cons_of_mem _ hx)

theorem foldl_min_mem (l : List ℚ) (a : ℚ) : l.foldl min a ∈ a :: l := by
  induction l generalizing a with
  | nil => simp
  | cons b t ih =>
    show t.foldl min (min a b) ∈ a :: b :: t
    rcases List.mem_cons.mp (ih (min a b)) with h | h
    · rw [h]
      rcases min_choice a b with hc | hc
      · rw [hc]; exact List.mem_cons_self _ _
      · rw [hc]; exact List.mem_cons_of_mem _ (List.mem_cons_self _ _)
    · exact List.mem_cons_of_mem _ (List.mem_cons_of_mem _ h)

theorem pyMin_le (l : List ℚ) : ∀ x ∈ l, pyMin l ≤ x := by
  cases l with
  | nil => simp
  | cons a t => exact fun x hx => foldl_min_le t a x hx

theorem pyMin_mem (l : List ℚ) (h : l ≠ []) : pyMin l ∈ l := by
  cases l with
  | nil => exact absurd rfl h
  | cons a t => exact foldl_min_mem t a

theorem foldl_max_le (l : List ℚ) (a : ℚ) : ∀ x ∈ a :: l, x ≤ l.foldl max a := by
  induction l generalizing a with
  | nil => intro x hx; simp at hx; simp [hx]
  | cons b t ih =>
    intro x hx
    have hbase : max a b ≤ t.foldl max (max a b) := ih (max a b) (max a b) (by simp)
    rw [List.mem_cons] at hx
    rcases hx with h | hx
    · subst h
      simpa using le_trans (le_max_left _ b) hbase
    · rw [List.mem_cons] at hx
      rcases hx with h | hx
      · subst h
        simpa using le_trans (le_max_right a _) hbase
      · exact ih (max a b) x (List.mem_cons_of_mem _ hx)

theorem foldl_max_mem (l : List ℚ) (a : ℚ) : l.foldl max a ∈ a :: l := by
  induction l generalizing a with
  | nil => simp
  | cons b t ih =>
    show t.foldl max (max a b) ∈ a :: b :: t
    rcases List.mem_cons.mp (ih (max a b)) with h | h
    · rw [h]
      rcases max_choice a b with hc | hc
      · rw [hc]; exact List.mem_cons_self _ _
      · rw [hc]; exact List.mem_cons_of_mem _ (List.mem_cons_self _ _)
    · exact List.mem_cons_of_mem _ (List.mem_cons_of_mem _ h)

theorem pyMax_le (l : List ℚ) : ∀ x ∈ l, x ≤ pyMax l := by
  cases l with
  | nil => simp
  | cons a t => exact fun x hx => foldl_max_le t a x hx

theorem pyMax_mem (l : List ℚ) (h : l ≠ []) : pyMax l ∈ l := by
  cases l with
  | nil => exact absurd rfl h
  | cons a t => exact foldl_max_mem t a

theorem sortedQ_sorted (l : List ℚ) : (sortedQ l).Sorted (· ≤ ·) :=
  List.sorted_insertionSort _ l

theorem sortedQ_perm (l : List ℚ) : List.Perm (sortedQ l) l :=
  List.perm_insertionSort _ l

theorem mem_sortedQ {l : List ℚ} {x : ℚ} : x ∈ sortedQ l ↔ x ∈ l :=
  (sortedQ_perm l).mem_iff

theorem sortedQ_length (l : List ℚ) : (sortedQ l).length = l.length :=
  (sortedQ_perm l).length_eq

theorem sortedQ_ne_nil {l : List ℚ} (h : l ≠ []) : sortedQ l ≠ [] := by
  intro hc
  have := sortedQ_length l
  rw [hc] at this
  exact h (List.length_eq_zero.mp this.symm)

/-! ### The type-7 quantile: bounds and monotonicity -/

theorem sorted_getD_mono (s : List ℚ) (hs : s.Sorted (· ≤ ·)) {i j : ℕ}
    (hij : i ≤ j) (hj : j < s.length) : s.getD i 0 ≤ s.getD j 0 := by
  have hi : i < s.length := lt_of_le_of_lt hij hj
  rw [List.getD_eq_getElem s 0 hi, List.getD_eq_getElem s 0 hj]
  rcases Nat.lt_or_ge i j with h | h
  · exact List.pairwise_iff_get.mp hs ⟨i, hi⟩ ⟨j, hj⟩ h
  · have : i = j := le_antisymm hij h
    subst this
    exact le_refl _

theorem quantile_index_lt (s : List ℚ) (hne : s ≠ []) {q : ℚ} (hq0 : 0 ≤ q) (hq1 : q ≤ 1) :
    (⌊((s.length : ℚ) - 1) * q⌋).toNat < s.length ∧
    ((⌊((s.length : ℚ) - 1) * q⌋).toNat : ℚ) ≤ ((s.length : ℚ) - 1) * q ∧
    ((s.length : ℚ) - 1) * q < (⌊((s.length : ℚ) - 1) * q⌋).toNat + 1 := by
  have hn : 1 ≤ s.length := List.length_pos.mpr hne
  have hn1 : (0 : ℚ) ≤ (s.length : ℚ) - 1 := by
    have : (1 : ℚ) ≤ (s.length : ℚ) := by exact_mod_cast hn
    linarith
  have hh0 : 0 ≤ ((s.length : ℚ) - 1) * q := mul_nonneg hn1 hq0
  have hfl0 : 0 ≤ ⌊((s.length : ℚ) - 1) * q⌋ := Int.floor_nonneg.mpr hh0
  have hcast : ((⌊((s.length : ℚ) - 1) * q⌋).toNat : ℤ) = ⌊((s.length : ℚ) - 1) * q⌋ :=
    Int.toNat_of_nonneg hfl0
  have hcastQ : ((⌊((s.length : ℚ) - 1) * q⌋).toNat : ℚ) = ((⌊((s.length : ℚ) - 1) * q⌋ : ℤ) : ℚ) := by
    calc ((⌊((s.length : ℚ) - 1) * q⌋).toNat : ℚ)
        = (((⌊((s.length : ℚ) - 1) * q⌋).toNat : ℤ) : ℚ) := by push_cast; ring
      _ = ((⌊((s.length : ℚ) - 1) * q⌋ : ℤ) : ℚ) := by rw [hcast]
  refine ⟨?_, ?_, ?_⟩
  · have hub : ((s.length : ℚ) - 1) * q ≤ (s.length : ℚ) - 1 := mul_le_of_le_one_right hn1 hq1
    have hlt : ((s.length : ℚ) - 1) * q < ((s.length : ℤ) : ℚ) := by push_cast; linarith
    have := Int.floor_lt.mpr hlt
    omega
  · rw [hcastQ]; exact Int.floor_le _
  · rw [hcastQ]; exact Int.lt_floor_add_one _

theorem quantileSorted_eq (s : List ℚ) (q : ℚ) :
    quantileSorted s q =
      s.getD (⌊((s.length : ℚ) - 1) * q⌋).toNat 0 +
      (((s.length : ℚ) - 1) * q - ((⌊((s.length : ℚ) - 1) * q⌋).toNat : ℚ)) *
      (s.getD ((⌊((s.length : ℚ) - 1) * q⌋).toNat + 1) (s.getD (⌊((s.length : ℚ) - 1) * q⌋).toNat 0) -
       s.getD (⌊((s.length : ℚ) - 1) * q⌋).toNat 0) := rfl

theorem quantileSorted_between (s : List ℚ) (hs : s.Sorted (· ≤ ·)) (hne : s ≠ [])
    {q : ℚ} (hq0 : 0 ≤ q) (hq1 : q ≤ 1) :
    ∃ u ∈ s, ∃ w ∈ s, u ≤ quantileSorted s q ∧ quantileSorted s q ≤ w := by
  obtain ⟨hlo, hle, hlt1⟩ := quantile_index_lt s hne hq0 hq1
  rw [quantileSorted_eq]
  set h : ℚ := ((s.length : ℚ) - 1) * q with hh
  set lo : ℕ := (⌊h⌋).toNat with hloDef
  set lov := s.getD lo 0 with hlovDef
  set hiv := s.getD (lo + 1) lov with hhivDef
  have hlovmem : lov ∈ s := by
    rw [hlovDef, List.getD_eq_getElem s 0 hlo]
    exact List.getElem_mem _
  have hlh : lov ≤ hiv ∧ hiv ∈ s := by
    rcases Nat.lt_or_ge (lo + 1) s.length with hr | hr
    · have hect : hiv = s.getD (lo + 1) 0 := by
        rw [hhivDef, List.getD_eq_getElem s lov hr, List.getD_eq_getElem s 0 hr]
      constructor
      · rw [hect]
        exact sorted_getD_mono s hs (Nat.le_succ lo) hr
      · rw [hect, List.getD_eq_getElem s 0 hr]
        exact List.getElem_mem _
    · have hect : hiv = lov := by
        rw [hhivDef]
        exact List.getD_eq_default s lov hr
      rw [hect]
      exact ⟨le_refl _, hlovmem⟩
  obtain ⟨hlelh, hhivmem⟩ := hlh
  refine ⟨lov, hlovmem, hiv, hhivmem, ?_, ?_⟩
  · nlinarith [mul_nonneg (by linarith : (0:ℚ) ≤ h - (lo : ℚ)) (sub_nonneg.mpr hlelh)]
  · nlinarith [mul_nonneg (by linarith : (0:ℚ) ≤ 1 - (h - (lo : ℚ))) (sub_nonneg.mpr hlelh)]

theorem quantileSorted_mono (s : List ℚ) (hs : s.Sorted (· ≤ ·)) {qa qb : ℚ}
    (h0 : 0 ≤ qa) (hab : qa ≤ qb) (h1 : qb ≤ 1) :
    quantileSorted s qa ≤ quantileSorted s qb := by
  rcases List.eq_nil_or_concat s with hnil | ⟨_, _, hcons⟩
  · subst hnil
    simp [quantileSorted]
  · have hne : s ≠ [] := by
      rw [hcons]
      simp
    obtain ⟨hloa, hlea, hlta⟩ := quantile_index_lt s hne h0 (le_trans hab h1)
    obtain ⟨hlob, hleb, hltb⟩ := quantile_index_lt s hne (le_trans h0 hab) h1
    rw [quantileSorted_eq, quantileSorted_eq]
    set ha : ℚ := ((s.length : ℚ) - 1) * qa with hhadef
    set hb : ℚ := ((s.length : ℚ) - 1) * qb with hhbdef
    set la : ℕ := (⌊ha⌋).toNat with hladef
    set lb : ℕ := (⌊hb⌋).toNat with hlbdef
    have hn1 : (0 : ℚ) ≤ (s.length : ℚ) - 1 := by
      have hp : 1 ≤ s.length := List.length_pos.mpr hne
      have : (1 : ℚ) ≤ (s.length : ℚ) := by exact_mod_cast hp
      linarith
    have hhab : ha ≤ hb := by
      rw [hhadef, hhbdef]
      exact mul_le_mul_of_nonneg_left hab hn1
    have hlab : la ≤ lb := by
      rw [hladef, hlbdef]
      exact Int.toNat_le_toNat (Int.floor_le_floor hhab)
    rcases Nat.lt_or_ge la lb with hcase | hcase
    · -- different base indices: chain through s[la+1] ≤ s[lb]
      have hsucc : la + 1 ≤ lb := hcase
      have hsucclt : la + 1 < s.length := lt_of_le_of_lt hsucc hlob
      have hhiva : s.getD (la + 1) (s.getD la 0) = s.getD (la + 1) 0 := by
        rw [List.getD_eq_getElem s _ hsucclt, List.getD_eq_getElem s 0 hsucclt]
      rw [hhiva]
      have hstep1 : s.getD la 0 ≤ s.getD (la + 1) 0 :=
        sorted_getD_mono s hs (Nat.le_succ la) hsucclt
      have hstep2 : s.getD (la + 1) 0 ≤ s.getD lb 0 :=
        sorted_getD_mono s hs hsucc hlob
      have hA : s.getD la 0 + (ha - (la : ℚ)) * (s.getD (la + 1) 0 - s.getD la 0) ≤
          s.getD (la + 1) 0 := by
        nlinarith [mul_nonneg (by linarith : (0:ℚ) ≤ 1 - (ha - (la : ℚ)))
          (sub_nonneg.mpr hstep1)]
      have hBlh : s.getD lb 0 ≤ s.getD (lb + 1) (s.getD lb 0) := by
        rcases Nat.lt_or_ge (lb + 1) s.length with hr | hr
        · rw [List.getD_eq_getElem s _ hr]
          rw [← List.getD_eq_getElem s 0 hr]
          exact sorted_getD_mono s hs (Nat.le_succ lb) hr
        · rw [List.getD_eq_default s _ hr]
      have hB : s.getD lb 0 ≤
          s.getD lb 0 + (hb - (lb : ℚ)) * (s.getD (lb + 1) (s.getD lb 0) - s.getD lb 0) := by
        nlinarith [mul_nonneg (by linarith : (0:ℚ) ≤ hb - (lb : ℚ)) (sub_nonneg.mpr hBlh)]
      linarith
    · -- same base index
      have heq : la = lb := le_antisymm hlab hcase
      rw [← heq]
      have hlh : s.getD la 0 ≤ s.getD (la + 1) (s.getD la 0) := by
        rcases Nat.lt_or_ge (la + 1) s.length with hr | hr
        · rw [List.getD_eq_getElem s _ hr]
          rw [← List.getD_eq_getElem s 0 hr]
          exact sorted_getD_mono s hs (Nat.le_succ la) hr
        · rw [List.getD_eq_default s _ hr]
      nlinarith [mul_nonneg (sub_nonneg.mpr hhab) (sub_nonneg.mpr hlh)]

theorem quantile_ge_pyMin (l : List ℚ) (hne : l ≠ []) {q : ℚ} (hq0 : 0 ≤ q) (hq1 : q ≤ 1) :
    pyMin l ≤ quantileSorted (sortedQ l) q := by
  obtain ⟨u, hu, w, hw, hle, _⟩ :=
    quantileSorted_between (sortedQ l) (sortedQ_sorted l) (sortedQ_ne_nil hne) hq0 hq1
  exact le_trans (pyMin_le l u (mem_sortedQ.mp hu)) hle

theorem quantile_le_pyMax (l : List ℚ) (hne : l ≠ []) {q : ℚ} (hq0 : 0 ≤ q) (hq1 : q ≤ 1) :
    quantileSorted (sortedQ l) q ≤ pyMax l := by
  obtain ⟨u, hu, w, hw, _, hle⟩ :=
    quantileSorted_between (sortedQ l) (sortedQ_sorted l) (sortedQ_ne_nil hne) hq0 hq1
  exact le_trans hle (pyMax_le l w (mem_sortedQ.mp hw))

theorem precompute_eq_of_ne (y : List RVal) (hne : dropna y ≠ []) :
    precompute_boxplot_values y =
      ⟨pyMin (dropna y),
       max (quantileSorted (sortedQ (dropna y)) (1/4) -
             (3/2) * (quantileSorted (sortedQ (dropna y)) (3/4) -
                      quantileSorted (sortedQ (dropna y)) (1/4)))
           (pyMin (dropna y)),
       quantileSorted (sortedQ (dropna y)) (1/4),
       quantileSorted (sortedQ (dropna y)) (1/2),
       quantileSorted (sortedQ (dropna y)) (3/4),
       min (quantileSorted (sortedQ (dropna y)) (3/4) +
             (3/2) * (quantileSorted (sortedQ (dropna y)) (3/4) -
                      quantileSorted (sortedQ (dropna y)) (1/4)))
           (pyMax (dropna y)),
       pyMax (dropna y),
       (157/100 : ℝ) * ((quantileSorted (sortedQ (dropna y)) (3/4) -
                         quantileSorted (sortedQ (dropna y)) (1/4) : ℚ) : ℝ) /
         Real.sqrt ((dropna y).length)⟩ := by
  have hlen : ¬ (dropna y).length = 0 := fun hc => hne (List.length_eq_zero.mp hc)
  simp only [precompute_boxplot_values, if_neg hlen]

/-- Claim C3: for every sample vector that is non-empty after dropping
NaNs, the box-plot summary satisfies
`lowerfence ≤ q1 ≤ median ≤ q3 ≤ upperfence`, and both reported fences
lie inside `[min, max]` of the observed (non-NaN) data. -/
theorem c3_boxplot_order (y : List RVal) (hne : dropna y ≠ []) :
    (precompute_boxplot_values y).lowerfence ≤ (precompute_boxplot_values y).q1 ∧
    (precompute_boxplot_values y).q1 ≤ (precompute_boxplot_values y).median ∧
    (precompute_boxplot_values y).median ≤ (precompute_boxplot_values y).q3 ∧
    (precompute_boxplot_values y).q3 ≤ (precompute_boxplot_values y).upperfence ∧
    (precompute_boxplot_values y).min ≤ (precompute_boxplot_values y).lowerfence ∧
    (precompute_boxplot_values y).lowerfence ≤ (precompute_boxplot_values y).max ∧
    (precompute_boxplot_values y).min ≤ (precompute_boxplot_values y).upperfence ∧
    (precompute_boxplot_values y).upperfence ≤ (precompute_boxplot_values y).max := by
  rw [precompute_eq_of_ne y hne]
  set l := dropna y with hl
  set s := sortedQ l with hsdef
  set q1 := quantileSorted s (1/4) with hq1def
  set med := quantileSorted s (1/2) with hmeddef
  set q3 := quantileSorted s (3/4) with hq3def
  have h14 : q1 ≤ med := quantileSorted_mono s (sortedQ_sorted l) (by norm_num) (by norm_num) (by norm_num)
  have h24 : med ≤ q3 := quantileSorted_mono s (sortedQ_sorted l) (by norm_num) (by norm_num) (by norm_num)
  have h13 : q1 ≤ q3 := le_trans h14 h24
  have hiqr : 0 ≤ (3/2 : ℚ) * (q3 - q1) := by nlinarith
  have hminq1 : pyMin l ≤ q1 := quantile_ge_pyMin l hne (by norm_num) (by norm_num)
  have hq3max : q3 ≤ pyMax l := quantile_le_pyMax l hne (by norm_num) (by norm_num)
  have hminmax : pyMin l ≤ pyMax l :=
    le_trans (le_trans hminq1 h13) hq3max
  refine ⟨?_, h14, h24, ?_, ?_, ?_, ?_, ?_⟩
  · exact max_le (by linarith) hminq1
  · exact le_min (by linarith) hq3max
  · exact le_max_right _ _
  · exact max_le (by linarith) hminmax
  · exact le_min (by linarith) hminmax
  · exact min_le_right _ _

/-- Witness for C3 at the concrete sample `[1, 2, 3, 4, 5, 100]`. -/
theorem c3_witness :
    dropna [some 1, some 2, some 3, some 4, some (5:ℚ), some 100] ≠ [] ∧
    ((precompute_boxplot_values [some 1, some 2, some 3, some 4, some (5:ℚ), some 100]).lowerfence ≤
      (precompute_boxplot_values [some 1, some 2, some 3, some 4, some (5:ℚ), some 100]).q1 ∧
     (precompute_boxplot_values [some 1, some 2, some 3, some 4, some (5:ℚ), some 100]).q1 ≤
      (precompute_boxplot_values [some 1, some 2, some 3, some 4, some (5:ℚ), some 100]).median ∧
     (precompute_boxplot_values [some 1, some 2, some 3, some 4, some (5:ℚ), some 100]).median ≤
      (precompute_boxplot_values [some 1, some 2, some 3, some 4, some (5:ℚ), some 100]).q3 ∧
     (precompute_boxplot_values [some 1, some 2, some 3, some 4, some (5:ℚ), some 100]).q3 ≤
      (precompute_boxplot_values [some 1, some 2, some 3, some 4, some (5:ℚ), some 100]).upperfence ∧
     (precompute_boxplot_values [some 1, some 2, some 3, some 4, some (5:ℚ), some 100]).min ≤
      (precompute_boxplot_values [some 1, some 2, some 3, some 4, some (5:ℚ), some 100]).lowerfence ∧
     (precompute_boxplot_values [some 1, some 2, some 3, some 4, some (5:ℚ), some 100]).lowerfence ≤
      (precompute_boxplot_values [some 1, some 2, some 3, some 4, some (5:ℚ), some 100]).max ∧
     (precompute_boxplot_values [some 1, some 2, some 3, some 4, some (5:ℚ), some 100]).min ≤
      (precompute_boxplot_values [some 1, some 2, some 3, some 4, some (5:ℚ), some 100]).upperfence ∧
     (precompute_boxplot_values [some 1, some 2, some 3, some 4, some (5:ℚ), some 100]).upperfence ≤
      (precompute_boxplot_values [some 1, some 2, some 3, some 4, some (5:ℚ), some 100]).max) :=
  ⟨by simp [dropna], c3_boxplot_order _ (by simp [dropna])⟩

/-- Claim C4: on the concrete sample `[1, 2, 3, 4, 5, 100]` the summary
has `q1 = 2.25`, `q3 = 4.75` (linear-interpolation quantiles),
`IQR = 2.5`, raw upper fence `8.5` reported unchanged, and raw lower
fence `-1.5` clipped up to the observed minimum `1`. -/
theorem c4_boxplot_concrete :
    (precompute_boxplot_values [some 1, some 2, some 3, some 4, some 5, some (100:ℚ)]).q1 = 9/4 ∧
    (precompute_boxplot_values [some 1, some 2, some 3, some 4, some 5, some (100:ℚ)]).q3 = 19/4 ∧
    (precompute_boxplot_values [some 1, some 2, some 3, some 4, some 5, some (100:ℚ)]).q3 -
      (precompute_boxplot_values [some 1, some 2, some 3, some 4, some 5, some (100:ℚ)]).q1 = 5/2 ∧
    (precompute_boxplot_values [some 1, some 2, some 3, some 4, some 5, some (100:ℚ)]).q3 +
      (3/2) * ((precompute_boxplot_values [some 1, some 2, some 3, some 4, some 5, some (100:ℚ)]).q3 -
        (precompute_boxplot_values [some 1, some 2, some 3, some 4, some 5, some (100:ℚ)]).q1) = 17/2 ∧
    (precompute_boxplot_values [some 1, some 2, some 3, some 4, some 5, some (100:ℚ)]).q1 -
      (3/2) * ((precompute_boxplot_values [some 1, some 2, some 3, some 4, some 5, some (100:ℚ)]).q3 -
        (precompute_boxplot_values [some 1, some 2, some 3, some 4, some 5, some (100:ℚ)]).q1) = -(3/2) ∧
    (precompute_boxplot_values [some 1, some 2, some 3, some 4, some 5, some (100:ℚ)]).upperfence = 17/2 ∧
    (precompute_boxplot_values [some 1, some 2, some 3, some 4, some 5, some (100:ℚ)]).lowerfence = 1 := by
  rw [precompute_eq_of_ne _ (by simp [dropna])]
  have hd : dropna [some 1, some 2, some 3, some 4, some 5, some (100:ℚ)] =
      [1, 2, 3, 4, 5, 100] := by simp [dropna]
  rw [hd]
  have hsort : sortedQ [1, 2, 3, 4, 5, (100:ℚ)] = [1, 2, 3, 4, 5, 100] := by
    norm_num [sortedQ, List.insertionSort, List.orderedInsert]
  rw [hsort]
  have h1 : quantileSorted [1, 2, 3, 4, 5, (100:ℚ)] (1/4) = 9/4 := by
    norm_num [quantileSorted]
  have h3 : quantileSorted [1, 2, 3, 4, 5, (100:ℚ)] (3/4) = 19/4 := by
    have ht : Int.toNat 3 = 3 := by decide
    norm_num [quantileSorted, ht]
  rw [h1, h3]
  norm_num [pyMin, pyMax]

/-- Claim C5: a sample that is empty after dropping NaNs yields the
defined all-zero summary record. -/
theorem c5_empty_zero_record (y : List RVal) (h : dropna y = []) :
    precompute_boxplot_values y = zeroBoxplotValues := by
  simp [precompute_boxplot_values, h]

/-- Witness for C5 at the all-NaN sample `[NaN]`. -/
theorem c5_witness :
    dropna [(none : RVal)] = [] ∧
    precompute_boxplot_values [(none : RVal)] = zeroBoxplotValues :=
  ⟨by simp [dropna], c5_empty_zero_record [none] (by simp [dropna])⟩

/-! ### `np.linspace` -/

/-- `np.linspace(a, b, num=n)` on real endpoints: `n` equally spaced
points from `a` to `b` inclusive (`[a]` for `n = 1`, `[]` for `n = 0`);
with exact rationals the final point equals `b` exactly, as numpy forces
for floats. -/
def linspaceQ (a b : ℚ) (n : ℕ) : List ℚ :=
  if n ≤ 1 then List.replicate n a
  else (List.range n).map (fun (i : ℕ) => a + (i : ℚ) * ((b - a) / ((n : ℚ) - 1)))

/-- `np.linspace` on possibly-NaN endpoints: a NaN endpoint contaminates
the step and hence every computed entry (`0 * NaN = NaN` already poisons
the first point), except that for `num > 1` numpy unconditionally forces
`y[-1] = stop`, so with a NaN start but a real stop the last entry is
still the real stop. -/
def linspaceR (a b : RVal) (n : ℕ) : List RVal :=
  match a, b with
  | some x, some y => (linspaceQ x y n).map some
  | none, some y =>
    if n ≤ 1 then List.replicate n none
    else List.replicate (n - 1) none ++ [some y]
  | _, none => List.replicate n none

theorem linspaceQ_length (a b : ℚ) (n : ℕ) : (linspaceQ a b n).length = n := by
  unfold linspaceQ
  split
  · exact List.length_replicate n a
  · rw [List.length_map, List.length_range]

theorem linspaceR_length (a b : RVal) (n : ℕ) : (linspaceR a b n).length = n := by
  cases a with
  | some x =>
    cases b with
    | some y =>
      show ((linspaceQ x y n).map some).length = n
      rw [List.length_map, linspaceQ_length]
    | none => exact List.length_replicate n none
  | none =>
    cases b with
    | some y =>
      show (if n ≤ 1 then List.replicate n (none : RVal)
            else List.replicate (n - 1) none ++ [some y]).length = n
      split
      · exact List.length_replicate n none
      · rename_i hn
        rw [List.length_append, List.length_replicate]
        simp
        omega
    | none => exact List.length_replicate n none

theorem linspaceQ_getD (a b : ℚ) {n i : ℕ} (hn : 2 ≤ n) (hi : i < n) :
    (linspaceQ a b n).getD i 0 = a + (i : ℚ) * ((b - a) / ((n : ℚ) - 1)) := by
  unfold linspaceQ
  rw [if_neg (by omega)]
  have hlen : i < ((List.range n).map
      (fun (j : ℕ) => a + (j : ℚ) * ((b - a) / ((n : ℚ) - 1)))).length := by
    rw [List.length_map, List.length_range]
    exact hi
  rw [List.getD_eq_getElem _ 0 hlen]
  simp only [List.getElem_map, List.getElem_range]

theorem linspaceQ_getD_zero (a b : ℚ) {n : ℕ} (hn : 2 ≤ n) :
    (linspaceQ a b n).getD 0 0 = a := by
  rw [linspaceQ_getD a b hn (by omega)]
  push_cast
  ring

theorem linspaceQ_getD_last (a b : ℚ) {n : ℕ} (hn : 2 ≤ n) :
    (linspaceQ a b n).getD (n - 1) 0 = b := by
  rw [linspaceQ_getD a b hn (by omega)]
  have hne : ((n : ℚ) - 1) ≠ 0 := by
    have h2 : (2 : ℚ) ≤ (n : ℚ) := by exact_mod_cast hn
    intro hc
    nlinarith
  have hcast : ((n - 1 : ℕ) : ℚ) = (n : ℚ) - 1 := by
    have h1 : 1 ≤ n := by omega
    push_cast [h1]
    ring
  rw [hcast]
  field_simp

theorem linspaceQ_chain_le (a b : ℚ) (hab : a ≤ b) (n : ℕ) :
    (linspaceQ a b n).Chain' (· ≤ ·) := by
  rw [List.chain'_iff_get]
  intro i hi
  rw [linspaceQ_length] at hi
  have hn : 2 ≤ n := by omega
  have h1 : i < n := by omega
  have h2 : i + 1 < n := by omega
  have e1 : (linspaceQ a b n).get ⟨i, by rw [linspaceQ_length]; omega⟩ =
      (linspaceQ a b n).getD i 0 := by
    rw [List.getD_eq_getElem _ 0 (by rw [linspaceQ_length]; omega)]
    simp
  have e2 : (linspaceQ a b n).get ⟨i + 1, by rw [linspaceQ_length]; omega⟩ =
      (linspaceQ a b n).getD (i + 1) 0 := by
    rw [List.getD_eq_getElem _ 0 (by rw [linspaceQ_length]; omega)]
    simp
  rw [e1, e2, linspaceQ_getD a b hn h1, linspaceQ_getD a b hn h2]
  have hstep : 0 ≤ (b - a) / ((n : ℚ) - 1) := by
    apply div_nonneg (by linarith)
    have h2q : (2 : ℚ) ≤ (n : ℚ) := by exact_mod_cast hn
    linarith
  have hcast : ((i + 1 : ℕ) : ℚ) = (i : ℚ) + 1 := by push_cast; ring
  rw [hcast]
  nlinarith [hstep]

theorem linspaceQ_chain_lt (a b : ℚ) (hab : a < b) {n : ℕ} (hn : 2 ≤ n) :
    (linspaceQ a b n).Chain' (· < ·) := by
  rw [List.chain'_iff_get]
  intro i hi
  rw [linspaceQ_length] at hi
  have h1 : i < n := by omega
  have h2 : i + 1 < n := by omega
  have e1 : (linspaceQ a b n).get ⟨i, by rw [linspaceQ_length]; omega⟩ =
      (linspaceQ a b n).getD i 0 := by
    rw [List.getD_eq_getElem _ 0 (by rw [linspaceQ_length]; omega)]
    simp
  have e2 : (linspaceQ a b n).get ⟨i + 1, by rw [linspaceQ_length]; omega⟩ =
      (linspaceQ a b n).getD (i + 1) 0 := by
    rw [List.getD_eq_getElem _ 0 (by rw [linspaceQ_length]; omega)]
    simp
  rw [e1, e2, linspaceQ_getD a b hn h1, linspaceQ_getD a b hn h2]
  have hstep : 0 < (b - a) / ((n : ℚ) - 1) := by
    apply div_pos (by linarith)
    have h2q : (2 : ℚ) ≤ (n : ℚ) := by exact_mod_cast hn
    linarith
  have hcast : ((i + 1 : ℕ) : ℚ) = (i : ℚ) + 1 := by push_cast; ring
  rw [hcast]
  nlinarith [hstep]

/-! ### `np.histogram(density=True)` and `_smooth_data` -/

/-- The monotonicity guard of `np.histogram` on an explicit edge array:
`np.any(bin_edges[:-1] > bin_edges[1:])` (a NaN makes every comparison
false, so NaN edges do not trigger the guard). -/
def histMonoFail (edges : List RVal) : Bool :=
  (edges.zip (edges.drop 1)).any (fun p => cGt p.1 p.2)

/-- Membership of a value in histogram bin `[lo, hi)`, right-closed
`[lo, hi]` for the last bin; NaN belongs to no bin, NaN edges collect
nothing. -/
def inBin (lo hi : RVal) (lastBin : Bool) (v : RVal) : Bool :=
  match lo, hi, v with
  | some a, some b, some x =>
    decide (a ≤ x) && (if lastBin then decide (x ≤ b) else decide (x < b))
  | _, _, _ => false

/-- The integer counts of `np.histogram(a=data, bins=edges)`. -/
def histogramCounts (edges : List RVal) (data : List RVal) : List ℕ :=
  (List.range (edges.length - 1)).map (fun (i : ℕ) =>
    data.countP (inBin (edges.getD i none) (edges.getD (i + 1) none)
      (decide (i + 2 = edges.length))))

/-- The densities of `np.histogram(..., density=True)`: count divided by
bin width and by the total in-range count (`n / db / n.sum()` in the
numpy source).  NaN edges give NaN densities; the degenerate rational
convention `q / 0 = 0` stands in for float `inf`/`nan` when a width or
the total is zero. -/
def histogramDensity (edges : List RVal) (data : List RVal) : List RVal :=
  let counts := histogramCounts edges data
  let total : ℚ := (counts.sum : ℚ)
  (List.range (edges.length - 1)).map (fun (i : ℕ) =>
    match edges.getD i none, edges.getD (i + 1) none with
    | some a, some b => some ((counts.getD i 0 : ℚ) / (b - a) / total)
    | _, _ => none)

/-- `_smooth_data(npoints, sigma, data, min_arg, max_arg)`: resolve the
range (defaults `np.nanmin` / `np.nanmax` of the data, which raise on an
empty array), build `npoints` equally spaced edges, take the density
histogram, drop the first edge, scale the densities by `len(data)` and
apply the Gaussian filter `gf`. -/
def smooth_data (gf : List RVal → List RVal) (npoints : ℕ) (data : List RVal)
    (min_arg max_arg : Option ℚ) : Option (List RVal × List RVal) :=
  match (match min_arg with | some q => some (some q) | none => nanMin data),
        (match max_arg with | some q => some (some q) | none => nanMax data) with
  | some mn, some mx =>
    let bins := linspaceR mn mx npoints
    if histMonoFail bins then none
    else
      let county := (histogramDensity bins data).map
        (Option.map (fun v => v * (data.length : ℚ)))
      some (bins.drop 1, gf county)
  | _, _ => none

theorem histMonoFail_replicate_none (n : ℕ) :
    histMonoFail (List.replicate n (none : RVal)) = false := by
  unfold histMonoFail
  rw [List.any_eq_false]
  intro p hp
  have hmem := List.of_mem_zip hp
  have h1 : p.1 = none := List.eq_of_mem_replicate hmem.1
  rw [h1]
  cases p.2 with
  | none => simp [cGt, cLt]
  | some v => simp [cGt, cLt]

theorem histMonoFail_map_some (l : List ℚ) (hl : l.Chain' (· ≤ ·)) :
    histMonoFail (l.map some) = false := by
  unfold histMonoFail
  induction l with
  | nil => rfl
  | cons a t ih =>
    cases t with
    | nil => rfl
    | cons b t2 =>
      have hab : a ≤ b := (List.chain'_cons.mp hl).1
      have htail : (b :: t2).Chain' (· ≤ ·) := (List.chain'_cons.mp hl).2
      simp only [List.map_cons, List.drop_succ_cons, List.drop_zero,
        List.zip_cons_cons, List.any_cons]
      rw [Bool.or_eq_false_iff]
      constructor
      · simp only [cGt, cLt, decide_eq_false_iff_not]
        exact not_lt.mpr hab
      · have := ih htail
        simp only [List.map_cons, List.drop_succ_cons, List.drop_zero] at this
        exact this

theorem histogramDensity_length (edges data : List RVal) :
    (histogramDensity edges data).length = edges.length - 1 := by
  unfold histogramDensity
  rw [List.length_map, List.length_range]

theorem nanMin_nanMax_spec (data : List RVal) (hne : data ≠ []) :
    (dropna data = [] ∧ nanMin data = some none ∧ nanMax data = some none) ∨
    (dropna data ≠ [] ∧ nanMin data = some (some (pyMin (dropna data))) ∧
     nanMax data = some (some (pyMax (dropna data)))) := by
  cases data with
  | nil => exact absurd rfl hne
  | cons d dt =>
    cases hdd : dropna (d :: dt) with
    | nil =>
      left
      exact ⟨rfl, by simp [nanMin, hdd], by simp [nanMax, hdd]⟩
    | cons e es =>
      right
      refine ⟨by simp [hdd], ?_, ?_⟩
      · simp [nanMin, hdd]
      · simp [nanMax, hdd]

/-- Claim C6 counterexample: on the empty sample vector `_smooth_data`
raises (`np.nanmin` of an empty array), so no sequences of length
`P − 1` are returned; here with `P = 5`. -/
theorem c6_counterexample : smooth_data id 5 [] none none = none := rfl

/-- Claim C6 amended: for every sample vector with at least one entry
and every requested point count `P ≥ 2`, `_smooth_data` (with its
default range and a length-preserving Gaussian filter `gf`) returns two
aligned sequences of length `P − 1`: the histogram edges with the first
edge dropped, and `gf` applied to the density histogram scaled by
`len(V)`, in that order. -/
theorem c6_amended (gf : List RVal → List RVal) (npoints : ℕ) (data : List RVal)
    (hne : data ≠ []) (hp : 2 ≤ npoints)
    (hgf : ∀ l, (gf l).length = l.length) :
    ∃ mn mx : RVal, nanMin data = some mn ∧ nanMax data = some mx ∧
      smooth_data gf npoints data none none =
        some ((linspaceR mn mx npoints).drop 1,
          gf ((histogramDensity (linspaceR mn mx npoints) data).map
            (Option.map (fun v => v * (data.length : ℚ))))) ∧
      ((linspaceR mn mx npoints).drop 1).length = npoints - 1 ∧
      (gf ((histogramDensity (linspaceR mn mx npoints) data).map
        (Option.map (fun v => v * (data.length : ℚ))))).length = npoints - 1 := by
  have hlen2 : ∀ mn mx : RVal,
      ((linspaceR mn mx npoints).drop 1).length = npoints - 1 := by
    intro mn mx
    rw [List.length_drop, linspaceR_length]
  have hlen3 : ∀ mn mx : RVal,
      (gf ((histogramDensity (linspaceR mn mx npoints) data).map
        (Option.map (fun v => v * (data.length : ℚ))))).length = npoints - 1 := by
    intro mn mx
    rw [hgf, List.length_map, histogramDensity_length, linspaceR_length]
  rcases nanMin_nanMax_spec data hne with ⟨hdd, hmn, hmx⟩ | ⟨hdd, hmn, hmx⟩
  · refine ⟨none, none, hmn, hmx, ?_, hlen2 none none, hlen3 none none⟩
    have hfail : histMonoFail (linspaceR none none npoints) = false := by
      show histMonoFail (List.replicate npoints none) = false
      exact histMonoFail_replicate_none npoints
    simp only [smooth_data, hmn, hmx, hfail]
    simp
  · refine ⟨some (pyMin (dropna data)), some (pyMax (dropna data)), hmn, hmx, ?_,
      hlen2 _ _, hlen3 _ _⟩
    have hminmax : pyMin (dropna data) ≤ pyMax (dropna data) := by
      have hmem := pyMin_mem (dropna data) hdd
      exact pyMax_le (dropna data) _ hmem
    have hfail : histMonoFail
        (linspaceR (some (pyMin (dropna data))) (some (pyMax (dropna data))) npoints) = false := by
      show histMonoFail ((linspaceQ (pyMin (dropna data)) (pyMax (dropna data)) npoints).map some) = false
      exact histMonoFail_map_some _ (linspaceQ_chain_le _ _ hminmax npoints)
    simp only [smooth_data, hmn, hmx, hfail]
    simp

/-- Witness for the amended C6 at `V = [1]`, `P = 2`, `gf = id`. -/
theorem c6_amended_witness :
    ([some (1:ℚ)] ≠ ([] : List RVal)) ∧ 2 ≤ 2 ∧
    (∃ mn mx : RVal, nanMin [some (1:ℚ)] = some mn ∧ nanMax [some (1:ℚ)] = some mx ∧
      smooth_data id 2 [some (1:ℚ)] none none =
        some ((linspaceR mn mx 2).drop 1,
          id ((histogramDensity (linspaceR mn mx 2) [some (1:ℚ)]).map
            (Option.map (fun v => v * (([some (1:ℚ)] : List RVal).length : ℚ))))) ∧
      ((linspaceR mn mx 2).drop 1).length = 2 - 1 ∧
      (id ((histogramDensity (linspaceR mn mx 2) [some (1:ℚ)]).map
        (Option.map (fun v => v * (([some (1:ℚ)] : List RVal).length : ℚ))))).length = 2 - 1) :=
  ⟨by simp, by omega, c6_amended id 2 [some 1] (by simp) (by omega) (fun l => rfl)⟩

/-! ### `_interpolate` -/

/-- Scalar mode of `_interpolate` (`y is None`):
`np.sort(resample(x, n_samples=npoints, random_state=1))`.
`sklearn.utils.resample` draws `npoints` indices uniformly with
replacement using the fixed seed; the drawn index list `ridx` (each
entry produced by `randint(0, len(x))`, hence `< len(x)`) is passed
explicitly here, since the Mersenne-Twister stream itself is outside the
embedding.  On an empty input `resample` raises (`randint(0, 0)`). -/
def interpolate_scalar (x : List RVal) (ridx : List ℕ) : Option (List RVal) :=
  match x with
  | [] => none
  | _ => some (List.insertionSort (fun a b => ssLe a b = true)
      (ridx.map (fun i => x.getD i none)))

/-- Paired mode of `_interpolate` (`y` given): build the scipy
interpolant `f = interp1d(x, y, kind=interp_type)` (which raises unless
`x` has at least two entries), then evaluate it on
`np.linspace(min(x), max(x), npoints)`.  The external interpolant is the
function parameter `f`. -/
def interpolate_paired (f : ℚ → ℚ) (x : List ℚ) (npoints : ℕ) :
    Option (List ℚ × List ℚ) :=
  if x.length < 2 then none
  else
    let xi := linspaceQ (pyMin x) (pyMax x) npoints
    some (xi, xi.map f)

theorem ssLe_total (a b : RVal) : ssLe a b = true ∨ ssLe b a = true := by
  cases a with
  | none => cases b with
    | none => left; rfl
    | some y => right; rfl
  | some x => cases b with
    | none => left; rfl
    | some y =>
      simp only [ssLe, ssLt, Bool.not_eq_true', decide_eq_false_iff_not, not_lt]
      exact le_total x y

theorem ssLe_trans (a b c : RVal) (hab : ssLe a b = true) (hbc : ssLe b c = true) :
    ssLe a c = true := by
  cases a with
  | none =>
    cases b with
    | some y => simp [ssLe, ssLt] at hab
    | none =>
      cases c with
      | none => rfl
      | some z => simp [ssLe, ssLt] at hbc
  | some x =>
    cases c with
    | none => rfl
    | some z =>
      cases b with
      | none => simp [ssLe, ssLt] at hbc
      | some y =>
        simp only [ssLe, ssLt, Bool.not_eq_true', decide_eq_false_iff_not, not_lt] at *
        linarith

/-- Claim C8 counterexample: on the empty input vector the scalar
resampler raises (`randint(0, 0)` in `sklearn.utils.resample`), so no
sorted vector of the requested length is returned, whatever `P` is
(shown for the index draws of length 0 and 3). -/
theorem c8_counterexample :
    interpolate_scalar [] [] = none ∧ interpolate_scalar [] [0, 0, 0] = none :=
  ⟨rfl, rfl⟩

/-- Claim C8 amended: for every non-empty input vector and every index
draw produced by the seeded `randint(0, len(x))` (each index below
`len(x)`), the scalar mode returns a vector of length equal to the
number of draws, non-decreasing in numpy's sort order (NaN largest),
with every entry taken from the input vector. -/
theorem c8_amended (x : List RVal) (ridx : List ℕ) (hx : x ≠ [])
    (hr : ∀ i ∈ ridx, i < x.length) :
    ∃ l, interpolate_scalar x ridx = some l ∧
      l.length = ridx.length ∧
      l.Chain' (fun a b => ssLe a b = true) ∧
      ∀ v ∈ l, v ∈ x := by
  haveI instTot : IsTotal RVal (fun a b => ssLe a b = true) := ⟨ssLe_total⟩
  haveI instTrans : IsTrans RVal (fun a b => ssLe a b = true) := ⟨ssLe_trans⟩
  cases x with
  | nil => exact absurd rfl hx
  | cons d dt =>
    refine ⟨List.insertionSort (fun a b => ssLe a b = true)
      ((ridx.map (fun i => (d :: dt).getD i none))), rfl, ?_, ?_, ?_⟩
    · rw [(List.perm_insertionSort _ _).length_eq, List.length_map]
    · exact (List.sorted_insertionSort _ _).chain'
    · intro v hv
      rw [(List.perm_insertionSort _ _).mem_iff] at hv
      rw [List.mem_map] at hv
      obtain ⟨i, hi, hvi⟩ := hv
      have hilen : i < (d :: dt).length := hr i hi
      rw [← hvi, List.getD_eq_getElem _ none hilen]
      exact List.getElem_mem _

/-- Witness for the amended C8 at `x = [2, 1]` with the index draw
`[1, 0, 1]` (`P = 3`). -/
theorem c8_amended_witness :
    ([some (2:ℚ), some 1] ≠ ([] : List RVal)) ∧
    (∀ i ∈ [1, 0, 1], i < ([some (2:ℚ), some 1] : List RVal).length) ∧
    (∃ l, interpolate_scalar [some (2:ℚ), some 1] [1, 0, 1] = some l ∧
      l.length = ([1, 0, 1] : List ℕ).length ∧
      l.Chain' (fun a b => ssLe a b = true) ∧
      ∀ v ∈ l, v ∈ ([some (2:ℚ), some 1] : List RVal)) :=
  ⟨by simp, by decide,
   c8_amended [some 2, some 1] [1, 0, 1] (by simp) (by decide)⟩

/-- Claim C9 counterexample: with `P = 1` the paired mode returns the
single point `min(X)`; the x-sequence does not span `[min(X), max(X)]`
(the maximum `2` is not reached), refuting the claim for every `P`. -/
theorem c9_counterexample :
    interpolate_paired (fun q => q) [0, 2] 1 = some ([0], [0]) ∧
    (2:ℚ) ∉ ([0] : List ℚ) := by
  constructor
  · norm_num [interpolate_paired, linspaceQ, pyMin]
  · norm_num

/-- Claim C9 amended: for `P ≥ 2` and an input `X` with at least two
entries (as `interp1d` requires), the paired mode returns the pair of
the `P` equally spaced points from `min(X)` to `max(X)` and the
interpolant `f` evaluated at them: first point `min(X)`, last point
`max(X)`, all consecutive gaps equal to `(max(X) − min(X)) / (P − 1)`. -/
theorem c9_amended (f : ℚ → ℚ) (x : List ℚ) (npoints : ℕ)
    (hx : 2 ≤ x.length) (hp : 2 ≤ npoints) :
    ∃ xi, interpolate_paired f x npoints = some (xi, xi.map f) ∧
      xi.length = npoints ∧
      xi.getD 0 0 = pyMin x ∧
      xi.getD (npoints - 1) 0 = pyMax x ∧
      (∀ i, i + 1 < npoints →
        xi.getD (i + 1) 0 - xi.getD i 0 = (pyMax x - pyMin x) / ((npoints : ℚ) - 1)) := by
  refine ⟨linspaceQ (pyMin x) (pyMax x) npoints, ?_, linspaceQ_length _ _ _,
    linspaceQ_getD_zero _ _ hp, linspaceQ_getD_last _ _ hp, ?_⟩
  · unfold interpolate_paired
    rw [if_neg (by omega)]
  · intro i hi
    rw [linspaceQ_getD _ _ hp (by omega), linspaceQ_getD _ _ hp (by omega)]
    push_cast
    ring

/-- Witness for the amended C9 at `f = id`, `X = [0, 2]`, `P = 2`. -/
theorem c9_amended_witness :
    2 ≤ ([0, 2] : List ℚ).length ∧ 2 ≤ 2 ∧
    (∃ xi, interpolate_paired (fun q => q) [0, 2] 2 = some (xi, xi.map (fun q => q)) ∧
      xi.length = 2 ∧
      xi.getD 0 0 = pyMin [0, 2] ∧
      xi.getD (2 - 1) 0 = pyMax [0, 2] ∧
      (∀ i, i + 1 < 2 →
        xi.getD (i + 1) 0 - xi.getD i 0 = (pyMax [0, 2] - pyMin [0, 2]) / ((2 : ℚ) - 1))) :=
  ⟨by simp, by omega, c9_amended (fun q => q) [0, 2] 2 (by simp) (by omega)⟩

/-! ### `np.digitize` and the `_over_time_graph` pipeline -/

/-- `np.searchsorted(bins, v, side='left')` on sorted bins: the number
of entries strictly below `v` in the numpy sort order (NaN largest) —
the first insertion index keeping the array sorted. -/
def searchsortedLeft (bins : List RVal) (v : RVal) : ℕ :=
  bins.countP (fun e => ssLt e v)

/-- The skip-equal loop at the start of numpy's `check_array_monotonic`:
drop leading entries equal (C `==`, false on NaN) to the first one. -/
def skipEq (last : RVal) : List RVal → List RVal
  | [] => []
  | x :: xs => if cEq last x then skipEq last xs else x :: xs

/-- The ascending verification loop of `check_array_monotonic`:
fail on a strict descent (C `>`, false on NaN). -/
def incOk : RVal → List RVal → Bool
  | _, [] => true
  | prev, x :: xs => if cGt prev x then false else incOk x xs

/-- The descending verification loop of `check_array_monotonic`:
fail on a strict ascent. -/
def decOk : RVal → List RVal → Bool
  | _, [] => true
  | prev, x :: xs => if cLt prev x then false else decOk x xs

/-- numpy's `check_array_monotonic`: `1` for monotonically increasing
(or all equal) bins, `-1` for decreasing, `0` otherwise.  Because every
C comparison with NaN is false, an all-NaN bin array is classified as
decreasing (`-1`). -/
def monoDir : List RVal → Int
  | [] => 1
  | last :: rest =>
    match skipEq last rest with
    | [] => 1
    | next :: rest2 =>
      if cLt last next then (if incOk next rest2 then 1 else 0)
      else (if decOk next rest2 then -1 else 0)

/-- `np.digitize(vs, bins, right=True)`: raise (`none`) unless the bins
are classified monotonic; for increasing bins `searchsorted(bins, v,
side='left')`, for decreasing bins `len(bins) - searchsorted(bins[::-1],
v, side='left')`. -/
def digitize (vs : List RVal) (bins : List RVal) : Option (List ℕ) :=
  match monoDir bins with
  | 0 => none
  | -1 => some (vs.map (fun v => bins.length - searchsortedLeft bins.reverse v))
  | _ => some (vs.map (fun v => searchsortedLeft bins v))

/-- The time vector converted to hours: `t = (time_series/3600).values`. -/
def otgHours (time : List RVal) : List RVal :=
  time.map (Option.map (fun s => s / 3600))

/-- The bin edges of `_over_time_graph`:
`x = np.linspace(t.min(), t.max(), num=time_bins)` (`none` if the time
vector is empty, since `ndarray.min` raises there). -/
def otgBins (time : List RVal) (tb : ℕ) : Option (List RVal) :=
  match arrMin (otgHours time), arrMax (otgHours time) with
  | some mn, some mx => some (linspaceR mn mx tb)
  | _, _ => none

/-- The digitize step of `_over_time_graph`:
`t = np.digitize(t, bins=x, right=True)`. -/
def otgIndices (time : List RVal) (tb : ℕ) : Option (List ℕ) :=
  (otgBins time tb).bind (fun x => digitize (otgHours time) x)

/-- The five percentiles drawn per bin: `percentiles = (0, 25, 50, 75, 100)`. -/
def percentileList : List ℚ := [0, 25, 50, 75, 100]

/-- The group of data values collected under the edge value `b` in
`bin_dict`: the loop `for bin_idx, val in zip(t, data_series):
bin_dict[x[bin_idx]].append(val)` keyed by float equality of the edge
value, in original order. -/
def otgGroup (x : List RVal) (idxs : List ℕ) (data : List RVal) (b : RVal) : List RVal :=
  (((idxs.zip data).map (fun p => (x.getD p.1 none, p.2))).filter
    (fun p => decide (p.1 = b))).map Prod.snd

/-- The numeric core of `_over_time_graph` before Gaussian smoothing:
bin edges, right-inclusive digitize, grouping by edge value, and per
edge (in edge order) the five percentiles of its group if the edge has
one, else NaN.  The loop `for bin_idx, val in zip(t, data_series)`
reads `x[bin_idx]` only for indices paired with a data value (`zip`
truncates to the shorter sequence), so the function raises exactly when
some paired index is out of range. -/
def overTimeRaw (data time : List RVal) (tb : ℕ) :
    Option (List RVal × List (List RVal)) :=
  match otgBins time tb, otgIndices time tb with
  | some x, some idxs =>
    if (idxs.zip data).all (fun p => decide (p.1 < x.length)) then
      some (x, percentileList.map (fun q =>
        x.map (fun b =>
          if otgGroup x idxs data b = [] then none
          else npPercentile (otgGroup x idxs data b) q)))
    else none
  | _, _ => none

/-- `_over_time_graph`'s plotted series: the raw percentile curves, each
smoothed by `gaussian_filter1d` (the function parameter `gf`). -/
def overTimeSmoothed (gf : List RVal → List RVal) (data time : List RVal) (tb : ℕ) :
    Option (List RVal × List (List RVal)) :=
  (overTimeRaw data time tb).map (fun r => (r.1, r.2.map gf))

/-- Spec-side description of the digitize assignment: the least bin edge
that is greater than or equal to the observation (for sorted edges, the
head of the filtered list). -/
def leastEdgeGE (edges : List ℚ) (v : ℚ) : Option ℚ :=
  (edges.filter (fun e => decide (v ≤ e))).head?

/-- A strictly increasing sequence of real (non-NaN) values, the claimed
shape of the returned x-axis. -/
def strictIncr (l : List RVal) : Prop := l.Chain' (fun a b => cLt a b = true)

theorem incOk_map_some (b : ℚ) (l : List ℚ) (h : (b :: l).Chain' (· ≤ ·)) :
    incOk (some b) (l.map some) = true := by
  induction l generalizing b with
  | nil => rfl
  | cons x xs ih =>
    have hbx : b ≤ x := (List.chain'_cons.mp h).1
    have htail : (x :: xs).Chain' (· ≤ ·) := (List.chain'_cons.mp h).2
    show (if cGt (some b) (some x) then false else incOk (some x) (xs.map some)) = true
    have hgt : cGt (some b) (some x) = false := by
      simp only [cGt, cLt, decide_eq_false_iff_not]
      exact not_lt.mpr hbx
    rw [hgt]
    simp only [Bool.false_eq_true, if_false]
    exact ih x htail

theorem skipEq_cons (last x : RVal) (xs : List RVal) :
    skipEq last (x :: xs) = if cEq last x then skipEq last xs else x :: xs := rfl

theorem monoDir_cons (last : RVal) (rest : List RVal) :
    monoDir (last :: rest) =
      (match skipEq last rest with
       | [] => (1 : Int)
       | next :: rest2 =>
         if cLt last next then (if incOk next rest2 then 1 else 0)
         else (if decOk next rest2 then -1 else 0)) := rfl

theorem skipEq_map_some (a : ℚ) (l : List ℚ) (h : (a :: l).Chain' (· ≤ ·)) :
    skipEq (some a) (l.map some) = [] ∨
    ∃ b l2, skipEq (some a) (l.map some) = (b :: l2).map some ∧ a < b ∧
      (b :: l2).Chain' (· ≤ ·) := by
  induction l with
  | nil => left; rfl
  | cons x xs ih =>
    have hax : a ≤ x := (List.chain'_cons.mp h).1
    have htail : (x :: xs).Chain' (· ≤ ·) := (List.chain'_cons.mp h).2
    rw [List.map_cons, skipEq_cons]
    rcases eq_or_lt_of_le hax with heq | hlt
    · have hceq : cEq (some a) (some x) = true := by
        simp only [cEq, decide_eq_true_eq]
        exact heq
      rw [hceq, if_pos rfl]
      apply ih
      rw [← heq] at htail
      exact htail
    · have hceq : cEq (some a) (some x) = false := by
        simp only [cEq, decide_eq_false_iff_not]
        exact ne_of_lt hlt
      rw [hceq, if_neg (by simp)]
      right
      exact ⟨x, xs, by rw [List.map_cons], hlt, htail⟩

theorem monoDir_map_some (l : List ℚ) (h : l.Chain' (· ≤ ·)) :
    monoDir (l.map some) = 1 := by
  cases l with
  | nil => rfl
  | cons a rest =>
    rw [List.map_cons, monoDir_cons]
    rcases skipEq_map_some a rest h with hskip | ⟨b, l2, hskip, hab, hchain⟩
    · rw [hskip]
    · rw [hskip, List.map_cons]
      have hlt : cLt (some a) (some b) = true := by
        simp only [cLt, decide_eq_true_eq]
        exact hab
      show (if cLt (some a) (some b) then
              (if incOk (some b) (l2.map some) then (1 : Int) else 0)
            else (if decOk (some b) (l2.map some) then -1 else 0)) = 1
      rw [hlt, incOk_map_some b l2 hchain]
      simp

theorem decOk_none_replicate (k : ℕ) :
    decOk none (List.replicate k (none : RVal)) = true := by
  induction k with
  | zero => rfl
  | succ m ih =>
    show (if cLt none none then false else decOk none (List.replicate m none)) = true
    exact ih

theorem monoDir_replicate_none {n : ℕ} (hn : 2 ≤ n) :
    monoDir (List.replicate n (none : RVal)) = -1 := by
  obtain ⟨m, rfl⟩ : ∃ m, n = m + 2 := ⟨n - 2, by omega⟩
  have hrep : List.replicate (m + 2) (none : RVal) =
      none :: List.replicate (m + 1) none := rfl
  have hrep2 : List.replicate (m + 1) (none : RVal) =
      none :: List.replicate m none := rfl
  rw [hrep, monoDir_cons, hrep2, skipEq_cons]
  have hceq : cEq (none : RVal) none = false := rfl
  rw [hceq, if_neg (by simp)]
  show (if cLt none none then
          (if incOk none (List.replicate m none) then (1 : Int) else 0)
        else (if decOk none (List.replicate m none) then -1 else 0)) = -1
  rw [decOk_none_replicate m]
  simp [cLt]

theorem searchsortedLeft_map_some (l : List ℚ) (v : ℚ) :
    searchsortedLeft (l.map some) (some v) = l.countP (fun e => decide (e < v)) := by
  unfold searchsortedLeft
  rw [List.countP_map]
  rfl

theorem sorted_countP_below (l : List ℚ) (hl : l.Pairwise (· ≤ ·)) (v : ℚ) :
    ∀ j, j < l.length →
      (l.getD j 0 < v ↔ j < l.countP (fun e => decide (e < v))) := by
  induction l with
  | nil => intro j hj; simp at hj
  | cons a t ih =>
    have hat : ∀ b ∈ t, a ≤ b := fun b hb => List.rel_of_pairwise_cons hl hb
    have htp : t.Pairwise (· ≤ ·) := hl.of_cons
    intro j hj
    by_cases hav : a < v
    · have hcp : (a :: t).countP (fun e => decide (e < v)) =
          t.countP (fun e => decide (e < v)) + 1 := by
        rw [List.countP_cons]
        simp [hav]
      cases j with
      | zero =>
        simp only [List.getD_cons_zero, hcp]
        constructor
        · intro _
          omega
        · intro _
          exact hav
      | succ m =>
        rw [List.getD_cons_succ, hcp]
        have hm : m < t.length := by simpa using hj
        rw [ih htp m hm]
        omega
    · have hva : v ≤ a := not_lt.mp hav
      have hz : t.countP (fun e => decide (e < v)) = 0 := by
        rw [List.countP_eq_zero]
        intro b hb
        simp only [decide_eq_true_eq]
        push_neg
        exact le_trans hva (hat b hb)
      have hcp : (a :: t).countP (fun e => decide (e < v)) = 0 := by
        rw [List.countP_cons]
        simp [hav, hz]
      rw [hcp]
      constructor
      · intro hlt
        exfalso
        cases j with
        | zero =>
          rw [List.getD_cons_zero] at hlt
          exact hav hlt
        | succ m =>
          rw [List.getD_cons_succ] at hlt
          have hm : m < t.length := by simpa using hj
          have hmem : t.getD m 0 ∈ t := by
            rw [List.getD_eq_getElem t 0 hm]
            exact List.getElem_mem _
          exact absurd hlt (not_lt.mpr (le_trans hva (hat _ hmem)))
      · intro hcontra
        omega

theorem leastEdgeGE_eq_getD (l : List ℚ) (hl : l.Pairwise (· ≤ ·)) (v : ℚ)
    (hk : l.countP (fun e => decide (e < v)) < l.length) :
    leastEdgeGE l v = some (l.getD (l.countP (fun e => decide (e < v))) 0) := by
  induction l with
  | nil => simp at hk
  | cons a t ih =>
    have hat : ∀ b ∈ t, a ≤ b := fun b hb => List.rel_of_pairwise_cons hl hb
    have htp : t.Pairwise (· ≤ ·) := hl.of_cons
    by_cases hav : a < v
    · have hcp : (a :: t).countP (fun e => decide (e < v)) =
          t.countP (fun e => decide (e < v)) + 1 := by
        rw [List.countP_cons]
        simp [hav]
      have hfil : leastEdgeGE (a :: t) v = leastEdgeGE t v := by
        unfold leastEdgeGE
        rw [List.filter_cons]
        have : ¬ v ≤ a := not_le.mpr hav
        simp [this]
      rw [hcp, hfil]
      rw [List.getD_cons_succ]
      apply ih htp
      rw [hcp] at hk
      simpa using hk
    · have hva : v ≤ a := not_lt.mp hav
      have hz : t.countP (fun e => decide (e < v)) = 0 := by
        rw [List.countP_eq_zero]
        intro b hb
        simp only [decide_eq_true_eq]
        push_neg
        exact le_trans hva (hat b hb)
      have hcp : (a :: t).countP (fun e => decide (e < v)) = 0 := by
        rw [List.countP_cons]
        simp [hav, hz]
      rw [hcp]
      unfold leastEdgeGE
      rw [List.filter_cons]
      simp [hva]

theorem countP_lt_length_of_ge (l : List ℚ) (v e : ℚ) (he : e ∈ l) (hve : v ≤ e) :
    l.countP (fun x => decide (x < v)) < l.length := by
  rcases Nat.lt_or_ge (l.countP (fun x => decide (x < v))) l.length with h | h
  · exact h
  · exfalso
    have heq : l.countP (fun x => decide (x < v)) = l.length :=
      le_antisymm (List.countP_le_length _) h
    have := List.countP_eq_length.mp heq e he
    simp only [decide_eq_true_eq] at this
    exact absurd this (not_lt.mpr hve)

theorem getD_map_some (l : List ℚ) {i : ℕ} (h : i < l.length) :
    (l.map some).getD i none = some (l.getD i 0) := by
  have h2 : i < (l.map some).length := by
    rw [List.length_map]
    exact h
  rw [List.getD_eq_getElem _ none h2, List.getD_eq_getElem _ 0 h, List.getElem_map]

theorem dropna_map_some (l : List ℚ) : dropna (l.map some) = l := by
  unfold dropna
  induction l with
  | nil => rfl
  | cons a t ih => simp [List.filterMap_cons, ih]

theorem arrMin_map_some (l : List ℚ) (hne : l ≠ []) :
    arrMin (l.map some) = some (some (pyMin l)) := by
  cases l with
  | nil => exact absurd rfl hne
  | cons a t =>
    show (if ((a :: t).map some).any Option.isNone then some none
          else some (some (pyMin (dropna ((a :: t).map some))))) = _
    have hany : ((a :: t).map some).any Option.isNone = false := by
      rw [List.any_eq_false]
      intro x hx
      rw [List.mem_map] at hx
      obtain ⟨q, _, rfl⟩ := hx
      simp
    rw [hany, dropna_map_some]
    simp

theorem arrMax_map_some (l : List ℚ) (hne : l ≠ []) :
    arrMax (l.map some) = some (some (pyMax l)) := by
  cases l with
  | nil => exact absurd rfl hne
  | cons a t =>
    show (if ((a :: t).map some).any Option.isNone then some none
          else some (some (pyMax (dropna ((a :: t).map some))))) = _
    have hany : ((a :: t).map some).any Option.isNone = false := by
      rw [List.any_eq_false]
      intro x hx
      rw [List.mem_map] at hx
      obtain ⟨q, _, rfl⟩ := hx
      simp
    rw [hany, dropna_map_some]
    simp

theorem arrMin_has_none (xs : List RVal) (hne : xs ≠ []) (h : none ∈ xs) :
    arrMin xs = some none := by
  cases xs with
  | nil => exact absurd rfl hne
  | cons a t =>
    show (if (a :: t).any Option.isNone then some none
          else some (some (pyMin (dropna (a :: t))))) = some none
    have hany : (a :: t).any Option.isNone = true := by
      rw [List.any_eq_true]
      exact ⟨none, h, rfl⟩
    rw [hany]
    simp

theorem arrMax_has_none (xs : List RVal) (hne : xs ≠ []) (h : none ∈ xs) :
    arrMax xs = some none := by
  cases xs with
  | nil => exact absurd rfl hne
  | cons a t =>
    show (if (a :: t).any Option.isNone then some none
          else some (some (pyMax (dropna (a :: t))))) = some none
    have hany : (a :: t).any Option.isNone = true := by
      rw [List.any_eq_true]
      exact ⟨none, h, rfl⟩
    rw [hany]
    simp

theorem digitize_map_some_sorted (vs : List RVal) (qb : List ℚ)
    (h : qb.Chain' (· ≤ ·)) :
    digitize vs (qb.map some) =
      some (vs.map (fun v => searchsortedLeft (qb.map some) v)) := by
  unfold digitize
  rw [monoDir_map_some qb h]
  rfl

theorem searchsortedLeft_replicate_none_rev (n : ℕ) (v : RVal) :
    searchsortedLeft (List.replicate n (none : RVal)).reverse v = 0 := by
  unfold searchsortedLeft
  rw [List.reverse_replicate, List.countP_eq_zero]
  intro e he
  rw [List.eq_of_mem_replicate he]
  cases v with
  | none => simp [ssLt]
  | some q => simp [ssLt]

theorem digitize_replicate_none (vs : List RVal) {n : ℕ} (hn : 2 ≤ n) :
    digitize vs (List.replicate n (none : RVal)) =
      some (vs.map (fun _ => n)) := by
  unfold digitize
  rw [monoDir_replicate_none hn]
  show some (vs.map (fun v => (List.replicate n (none : RVal)).length -
      searchsortedLeft (List.replicate n (none : RVal)).reverse v)) = _
  congr 1
  apply List.map_congr_left
  intro a _
  rw [searchsortedLeft_replicate_none_rev, List.length_replicate]
  omega

/-- The rational view of the hour-converted time vector. -/
def otgHoursQ (qts : List ℚ) : List ℚ := qts.map (fun s => s / 3600)

/-- The rational view of the bin edges of `_over_time_graph` on a
NaN-free time vector. -/
def otgEdgesQ (qts : List ℚ) (tb : ℕ) : List ℚ :=
  linspaceQ (pyMin (otgHoursQ qts)) (pyMax (otgHoursQ qts)) tb

theorem otgHoursQ_ne_nil {qts : List ℚ} (hne : qts ≠ []) : otgHoursQ qts ≠ [] := by
  unfold otgHoursQ
  simpa using hne

theorem otgHours_map_some (qts : List ℚ) :
    otgHours (qts.map some) = (otgHoursQ qts).map some := by
  unfold otgHours otgHoursQ
  rw [List.map_map, List.map_map]
  rfl

theorem otgEdgesQ_chain (qts : List ℚ) (tb : ℕ) (hne : qts ≠ []) :
    (otgEdgesQ qts tb).Chain' (· ≤ ·) := by
  unfold otgEdgesQ
  apply linspaceQ_chain_le
  exact pyMax_le _ _ (pyMin_mem _ (otgHoursQ_ne_nil hne))

theorem otgBins_map_some (qts : List ℚ) (tb : ℕ) (hne : qts ≠ []) :
    otgBins (qts.map some) tb = some ((otgEdgesQ qts tb).map some) := by
  unfold otgBins otgEdgesQ
  rw [otgHours_map_some]
  rw [arrMin_map_some _ (otgHoursQ_ne_nil hne), arrMax_map_some _ (otgHoursQ_ne_nil hne)]
  rfl

theorem otgIndices_map_some (qts : List ℚ) (tb : ℕ) (hne : qts ≠ []) :
    otgIndices (qts.map some) tb =
      some ((otgHoursQ qts).map (fun v =>
        (otgEdgesQ qts tb).countP (fun e => decide (e < v)))) := by
  unfold otgIndices
  rw [otgBins_map_some qts tb hne]
  show digitize (otgHours (qts.map some)) ((otgEdgesQ qts tb).map some) = _
  rw [otgHours_map_some]
  rw [digitize_map_some_sorted _ _ (otgEdgesQ_chain qts tb hne)]
  congr 1
  rw [List.map_map]
  apply List.map_congr_left
  intro v _
  exact searchsortedLeft_map_some _ v

theorem otgIndex_lt (qts : List ℚ) (tb : ℕ) (hne : qts ≠ []) (htb : 2 ≤ tb)
    (v : ℚ) (hv : v ∈ otgHoursQ qts) :
    (otgEdgesQ qts tb).countP (fun e => decide (e < v)) < tb := by
  have hlen : (otgEdgesQ qts tb).length = tb := linspaceQ_length _ _ _
  have hmax : v ≤ pyMax (otgHoursQ qts) := pyMax_le _ v hv
  have hlast : (otgEdgesQ qts tb).getD (tb - 1) 0 = pyMax (otgHoursQ qts) :=
    linspaceQ_getD_last _ _ htb
  have hmem : (otgEdgesQ qts tb).getD (tb - 1) 0 ∈ otgEdgesQ qts tb := by
    rw [List.getD_eq_getElem _ 0 (by rw [hlen]; omega)]
    exact List.getElem_mem _
  have h2 := countP_lt_length_of_ge _ v _ hmem (by rw [hlast]; exact hmax)
  rwa [hlen] at h2

theorem overTimeRaw_map_some (qts : List ℚ) (data : List RVal) (tb : ℕ)
    (hne : qts ≠ []) (htb : 2 ≤ tb) :
    overTimeRaw data (qts.map some) tb =
      some ((otgEdgesQ qts tb).map some,
        percentileList.map (fun q =>
          ((otgEdgesQ qts tb).map some).map (fun b =>
            if otgGroup ((otgEdgesQ qts tb).map some)
                ((otgHoursQ qts).map (fun v =>
                  (otgEdgesQ qts tb).countP (fun e => decide (e < v)))) data b = []
            then none
            else npPercentile (otgGroup ((otgEdgesQ qts tb).map some)
                ((otgHoursQ qts).map (fun v =>
                  (otgEdgesQ qts tb).countP (fun e => decide (e < v)))) data b) q))) := by
  unfold overTimeRaw
  rw [otgBins_map_some qts tb hne, otgIndices_map_some qts tb hne]
  have hall : ((((otgHoursQ qts).map (fun v =>
      (otgEdgesQ qts tb).countP (fun e => decide (e < v)))).zip data).all
        (fun p => decide (p.1 < ((otgEdgesQ qts tb).map some).length))) = true := by
    rw [List.all_eq_true]
    intro p hp
    have hp1 := (List.of_mem_zip hp).1
    rw [List.mem_map] at hp1
    obtain ⟨v, hv, hpv⟩ := hp1
    simp only [decide_eq_true_eq, List.length_map]
    have hlen : (otgEdgesQ qts tb).length = tb := linspaceQ_length _ _ _
    rw [hlen, ← hpv]
    exact otgIndex_lt qts tb hne htb v hv
  show (if (((otgHoursQ qts).map (fun v =>
      (otgEdgesQ qts tb).countP (fun e => decide (e < v)))).zip data).all
        (fun p => decide (p.1 < ((otgEdgesQ qts tb).map some).length)) = true
    then _ else none) = _
  rw [hall]
  simp only [if_true]

/-- Claim C10: with bin edges built from the time vector itself
(`time_bins ≥ 2`, as in every call of the program, which uses the
default 1000) and a data vector paired with the time vector (equal
lengths, the spec's parallel-vector layout): for a non-empty NaN-free
time vector the right-inclusive digitize step produces only indices
below `time_bins`, so the edge lookup `x[bin_idx]` stays in range; if
the time vector contains a NaN, every produced index is the
out-of-range `len(x) = time_bins` (the NaN propagates into all bin
edges, which numpy's monotonicity check then classifies as decreasing)
and the pipeline fails at the first edge lookup of the zip loop. -/
theorem c10_digitize_bounds (time data : List RVal) (tb : ℕ)
    (htb : 2 ≤ tb) (hne : time ≠ []) (hdlen : data.length = time.length) :
    (∀ qts : List ℚ, time = qts.map some →
       ∃ idxs, otgIndices time tb = some idxs ∧ ∀ i ∈ idxs, i < tb) ∧
    ((none ∈ time) →
       otgIndices time tb = some (List.replicate time.length tb) ∧
       overTimeRaw data time tb = none) := by
  constructor
  · rintro qts rfl
    have hq : qts ≠ [] := by
      intro hc
      rw [hc] at hne
      exact hne rfl
    refine ⟨_, otgIndices_map_some qts tb hq, ?_⟩
    intro i hi
    rw [List.mem_map] at hi
    obtain ⟨v, hv, rfl⟩ := hi
    exact otgIndex_lt qts tb hq htb v hv
  · intro hnone
    have hhne : otgHours time ≠ [] := by
      unfold otgHours
      simpa using hne
    have hhnone : none ∈ otgHours time := by
      unfold otgHours
      rw [List.mem_map]
      exact ⟨none, hnone, rfl⟩
    have hbins : otgBins time tb = some (List.replicate tb none) := by
      unfold otgBins
      rw [arrMin_has_none _ hhne hhnone, arrMax_has_none _ hhne hhnone]
      rfl
    have hidx : otgIndices time tb = some (List.replicate time.length tb) := by
      unfold otgIndices
      rw [hbins]
      show digitize (otgHours time) (List.replicate tb none) = _
      rw [digitize_replicate_none _ htb]
      congr 1
      have hmc : (otgHours time).map (fun _ => tb) =
          List.replicate (otgHours time).length tb := by
        rw [List.map_const']
      rw [hmc]
      unfold otgHours
      rw [List.length_map]
    refine ⟨hidx, ?_⟩
    unfold overTimeRaw
    rw [hbins, hidx]
    cases time with
    | nil => exact absurd rfl hne
    | cons t0 trest =>
      cases data with
      | nil =>
        exfalso
        rw [List.length_nil] at hdlen
        simp at hdlen
      | cons d0 drest =>
        have hfalse : (((List.replicate (t0 :: trest).length tb).zip (d0 :: drest)).all
            (fun p => decide (p.1 < (List.replicate tb (none : RVal)).length))) = false := by
          show ((tb :: List.replicate trest.length tb).zip (d0 :: drest)).all
            (fun p => decide (p.1 < (List.replicate tb (none : RVal)).length)) = false
          rw [List.zip_cons_cons, List.all_cons]
          have hd : decide (tb < (List.replicate tb (none : RVal)).length) = false := by
            simp
          rw [hd]
          rfl
        show (if ((List.replicate (t0 :: trest).length tb).zip (d0 :: drest)).all
            (fun p => decide (p.1 < (List.replicate tb (none : RVal)).length)) = true
          then _ else none) = none
        rw [hfalse]
        simp

/-- Witness for C10, exercising both halves at `time_bins = 2` with the
paired data vector `V = [1, 2]`: the NaN-free time vector
`T = [0 s, 7200 s]` yields digitize indices all below 2; the time
vector `T = [0 s, NaN]` yields the out-of-range index 2 for every
observation and the pipeline fails. -/
theorem c10_witness :
    ((2 ≤ 2 ∧ ([some (0:ℚ), some 7200] : List RVal) ≠ [] ∧
      ([some (1:ℚ), some 2] : List RVal).length =
        ([some (0:ℚ), some 7200] : List RVal).length) ∧
     (∃ idxs, otgIndices [some (0:ℚ), some 7200] 2 = some idxs ∧ ∀ i ∈ idxs, i < 2)) ∧
    ((([some (0:ℚ), none] : List RVal) ≠ [] ∧
      ([some (1:ℚ), some 2] : List RVal).length =
        ([some (0:ℚ), none] : List RVal).length ∧
      none ∈ ([some (0:ℚ), none] : List RVal)) ∧
     (otgIndices [some (0:ℚ), none] 2 =
        some (List.replicate ([some (0:ℚ), none] : List RVal).length 2) ∧
      overTimeRaw [some (1:ℚ), some 2] [some (0:ℚ), none] 2 = none)) :=
  ⟨⟨⟨by omega, by simp, rfl⟩,
    (c10_digitize_bounds [some 0, some 7200] [some 1, some 2] 2 (by omega) (by simp)
      rfl).1 [0, 7200] rfl⟩,
   ⟨⟨by simp, rfl, by simp⟩,
    (c10_digitize_bounds [some 0, none] [some 1, some 2] 2 (by omega) (by simp)
      rfl).2 (by simp)⟩⟩

theorem otgEdgesQ_single_zero : otgEdgesQ [0] 2 = [0, 0] := by
  unfold otgEdgesQ otgHoursQ
  have h1 : ([(0:ℚ)].map (fun s => s / 3600)) = [0] := by
    norm_num
  rw [h1]
  have h2 : pyMin [(0:ℚ)] = 0 := rfl
  have h3 : pyMax [(0:ℚ)] = 0 := rfl
  rw [h2, h3]
  unfold linspaceQ
  rw [if_neg (by omega)]
  have h4 : List.range 2 = [0, 1] := rfl
  rw [h4]
  norm_num

/-- Claim C1 counterexample: with the single-read input `V = [5]`,
`T = [0 s]` (equal lengths, no NaN) and `time_bins = 2`, the pipeline
succeeds but the returned x-axis is the constant sequence `[0, 0]` —
not strictly increasing (the bin edges degenerate whenever the time
vector has a single distinct value, including at the default
`time_bins = 1000`). -/
theorem c1_counterexample :
    (overTimeSmoothed id [some (5:ℚ)] [some (0:ℚ)] 2).map Prod.fst =
      some [some (0:ℚ), some 0] ∧ ¬ strictIncr [some (0:ℚ), some 0] := by
  constructor
  · have heq : ([some (0:ℚ)] : List RVal) = ([(0:ℚ)] : List ℚ).map some := rfl
    rw [heq]
    unfold overTimeSmoothed
    rw [overTimeRaw_map_some [0] [some 5] 2 (by simp) (by omega)]
    rw [otgEdgesQ_single_zero]
    rfl
  · intro hc
    unfold strictIncr at hc
    have := (List.chain'_cons.mp hc).1
    simp [cLt] at this

/-- Claim C1 amended: for a NaN-free time vector with at least two
distinct values, a matching data vector, `time_bins ≥ 2` and a
length-preserving Gaussian filter, `_over_time_graph` produces five
percentile sequences of length `time_bins` and a strictly increasing
x-axis of length `time_bins`. -/
theorem c1_amended (gf : List RVal → List RVal) (data : List RVal) (qts : List ℚ)
    (tb : ℕ) (hlen : data.length = qts.length)
    (ha : ∃ u ∈ qts, ∃ w ∈ qts, u ≠ w)
    (htb : 2 ≤ tb)
    (hgf : ∀ l, (gf l).length = l.length) :
    ∃ X YS, overTimeSmoothed gf data (qts.map some) tb = some (X, YS) ∧
      X.length = tb ∧ YS.length = 5 ∧ (∀ ys ∈ YS, ys.length = tb) ∧ strictIncr X := by
  obtain ⟨u, hu, w, hw, huw⟩ := ha
  have hne : qts ≠ [] := by
    intro hc
    rw [hc] at hu
    simp at hu
  refine ⟨(otgEdgesQ qts tb).map some,
    (percentileList.map (fun q =>
      ((otgEdgesQ qts tb).map some).map (fun b =>
        if otgGroup ((otgEdgesQ qts tb).map some)
            ((otgHoursQ qts).map (fun v =>
              (otgEdgesQ qts tb).countP (fun e => decide (e < v)))) data b = []
        then none
        else npPercentile (otgGroup ((otgEdgesQ qts tb).map some)
            ((otgHoursQ qts).map (fun v =>
              (otgEdgesQ qts tb).countP (fun e => decide (e < v)))) data b) q))).map gf,
    ?_, ?_, ?_, ?_, ?_⟩
  · unfold overTimeSmoothed
    rw [overTimeRaw_map_some qts data tb hne htb]
    rfl
  · rw [List.length_map]
    exact linspaceQ_length _ _ _
  · rw [List.length_map, List.length_map]
    rfl
  · intro ys hys
    rw [List.mem_map] at hys
    obtain ⟨ys0, hys0, rfl⟩ := hys
    rw [List.mem_map] at hys0
    obtain ⟨q, _, rfl⟩ := hys0
    rw [hgf, List.length_map, List.length_map]
    exact linspaceQ_length _ _ _
  · -- strictly increasing: the two distinct times give min < max in hours
    have hu3 : u / 3600 ∈ otgHoursQ qts := by
      unfold otgHoursQ
      rw [List.mem_map]
      exact ⟨u, hu, rfl⟩
    have hw3 : w / 3600 ∈ otgHoursQ qts := by
      unfold otgHoursQ
      rw [List.mem_map]
      exact ⟨w, hw, rfl⟩
    have hne3 : u / 3600 ≠ w / 3600 := by
      intro hc
      apply huw
      field_simp at hc
      exact hc
    have hminmax : pyMin (otgHoursQ qts) < pyMax (otgHoursQ qts) := by
      rcases lt_or_le (pyMin (otgHoursQ qts)) (pyMax (otgHoursQ qts)) with h | h
      · exact h
      · exfalso
        have h1 : pyMin (otgHoursQ qts) ≤ u / 3600 := pyMin_le _ _ hu3
        have h2 : u / 3600 ≤ pyMax (otgHoursQ qts) := pyMax_le _ _ hu3
        have h3 : pyMin (otgHoursQ qts) ≤ w / 3600 := pyMin_le _ _ hw3
        have h4 : w / 3600 ≤ pyMax (otgHoursQ qts) := pyMax_le _ _ hw3
        apply hne3
        linarith
    have hchain : (otgEdgesQ qts tb).Chain' (· < ·) :=
      linspaceQ_chain_lt _ _ hminmax htb
    unfold strictIncr
    rw [List.chain'_map]
    apply hchain.imp
    intro a b hab
    simp only [cLt, decide_eq_true_eq]
    exact hab

/-- Witness for the amended C1 at `V = [1, 2]`, `T = [0 s, 3600 s]`,
`time_bins = 2`, `gf = id`. -/
theorem c1_amended_witness :
    ([some (1:ℚ), some 2] : List RVal).length = ([0, 3600] : List ℚ).length ∧
    (∃ u ∈ ([0, 3600] : List ℚ), ∃ w ∈ ([0, 3600] : List ℚ), u ≠ w) ∧
    (∃ X YS, overTimeSmoothed id [some (1:ℚ), some 2] (([0, 3600] : List ℚ).map some) 2 =
        some (X, YS) ∧
      X.length = 2 ∧ YS.length = 5 ∧ (∀ ys ∈ YS, ys.length = 2) ∧ strictIncr X) :=
  ⟨rfl, ⟨0, by simp, 3600, by simp, by norm_num⟩,
   c1_amended id [some 1, some 2] [0, 3600] 2 rfl
     ⟨0, by simp, 3600, by simp, by norm_num⟩ (by omega) (fun l => rfl)⟩

/-- Spec-side grouping for claim C2: pair each hour-converted
observation time with its data value, keep the pairs whose closest edge
greater than or equal to the time equals the edge value at position `j`,
and project to the data values (in original order). -/
def specGroup (qts : List ℚ) (data : List RVal) (qedges : List ℚ) (j : ℕ) : List RVal :=
  (((otgHoursQ qts).zip data).filter
    (fun p => decide (leastEdgeGE qedges p.1 = some (qedges.getD j 0)))).map Prod.snd

theorem getD_map_of_lt {α β : Type} (f : α → β) (l : List α) (d : β) (d2 : α)
    {i : ℕ} (h : i < l.length) :
    (l.map f).getD i d = f (l.getD i d2) := by
  rw [List.getD_eq_getElem _ d (by rw [List.length_map]; exact h),
    List.getD_eq_getElem _ d2 h, List.getElem_map]

theorem otgEdgesQ_length (qts : List ℚ) (tb : ℕ) : (otgEdgesQ qts tb).length = tb :=
  linspaceQ_length _ _ _

theorem otgGroup_eq_specGroup (qts : List ℚ) (data : List RVal) (tb : ℕ)
    (hne : qts ≠ []) (htb : 2 ≤ tb) (j : ℕ) :
    otgGroup ((otgEdgesQ qts tb).map some)
      ((otgHoursQ qts).map (fun v => (otgEdgesQ qts tb).countP (fun e => decide (e < v))))
      data (some ((otgEdgesQ qts tb).getD j 0)) =
    specGroup qts data (otgEdgesQ qts tb) j := by
  unfold otgGroup specGroup
  rw [List.zip_map_left, List.map_map]
  rw [List.filter_map, List.map_map]
  congr 1
  apply List.filter_congr
  intro p hp
  have hp1 : p.1 ∈ otgHoursQ qts := (List.of_mem_zip hp).1
  have hidx : (otgEdgesQ qts tb).countP (fun e => decide (e < p.1)) <
      (otgEdgesQ qts tb).length := by
    have := otgIndex_lt qts tb hne htb p.1 hp1
    rw [otgEdgesQ_length]
    exact this
  have hpair : (otgEdgesQ qts tb).Pairwise (· ≤ ·) := by
    rw [← List.chain'_iff_pairwise]
    exact otgEdgesQ_chain qts tb hne
  have hleast := leastEdgeGE_eq_getD (otgEdgesQ qts tb) hpair p.1 hidx
  show decide (((otgEdgesQ qts tb).map some).getD
      ((otgEdgesQ qts tb).countP (fun e => decide (e < p.1))) none =
        some ((otgEdgesQ qts tb).getD j 0)) =
    decide (leastEdgeGE (otgEdgesQ qts tb) p.1 = some ((otgEdgesQ qts tb).getD j 0))
  rw [getD_map_of_lt some _ none 0 hidx, hleast]

/-- Claim C2: on a NaN-free non-empty time vector (with `time_bins ≥ 2`
as configured), every observation is assigned to the closest bin edge
greater than or equal to its hour value (right-inclusive digitize), the
observations are grouped by that edge value, and the output at each edge
position, iterating edges in their original order, is the 0/25/50/75/100
percentile of the group under that edge value if non-empty and NaN
otherwise — before any smoothing. -/
theorem c2_binning_semantics (qts : List ℚ) (data : List RVal) (tb : ℕ)
    (hne : qts ≠ []) (htb : 2 ≤ tb) :
    ∃ YS, overTimeRaw data (qts.map some) tb =
        some ((otgEdgesQ qts tb).map some, YS) ∧
      YS.length = 5 ∧
      (∀ v ∈ otgHoursQ qts,
        ((otgEdgesQ qts tb).map some).getD
          ((otgEdgesQ qts tb).countP (fun e => decide (e < v))) none =
          leastEdgeGE (otgEdgesQ qts tb) v) ∧
      (∀ j, j < tb → ∀ k, k < 5 →
        (YS.getD k []).getD j none =
          (if specGroup qts data (otgEdgesQ qts tb) j = [] then none
           else npPercentile (specGroup qts data (otgEdgesQ qts tb) j)
             (percentileList.getD k 0))) := by
  have hpair : (otgEdgesQ qts tb).Pairwise (· ≤ ·) := by
    rw [← List.chain'_iff_pairwise]
    exact otgEdgesQ_chain qts tb hne
  refine ⟨percentileList.map (fun q =>
    ((otgEdgesQ qts tb).map some).map (fun b =>
      if otgGroup ((otgEdgesQ qts tb).map some)
          ((otgHoursQ qts).map (fun v =>
            (otgEdgesQ qts tb).countP (fun e => decide (e < v)))) data b = []
      then none
      else npPercentile (otgGroup ((otgEdgesQ qts tb).map some)
          ((otgHoursQ qts).map (fun v =>
            (otgEdgesQ qts tb).countP (fun e => decide (e < v)))) data b) q)),
    overTimeRaw_map_some qts data tb hne htb, ?_, ?_, ?_⟩
  · rw [List.length_map]
    rfl
  · intro v hv
    have hidx : (otgEdgesQ qts tb).countP (fun e => decide (e < v)) <
        (otgEdgesQ qts tb).length := by
      rw [otgEdgesQ_length]
      exact otgIndex_lt qts tb hne htb v hv
    rw [getD_map_of_lt some _ none 0 hidx]
    exact (leastEdgeGE_eq_getD _ hpair v hidx).symm
  · intro j hj k hk
    have hk5 : k < percentileList.length := by
      show k < 5
      exact hk
    rw [getD_map_of_lt _ percentileList [] 0 hk5]
    have hjlen : j < ((otgEdgesQ qts tb).map some).length := by
      rw [List.length_map, otgEdgesQ_length]
      exact hj
    rw [getD_map_of_lt _ ((otgEdgesQ qts tb).map some) none none hjlen]
    have hjq : j < (otgEdgesQ qts tb).length := by
      rw [otgEdgesQ_length]
      exact hj
    rw [getD_map_of_lt some _ none 0 hjq]
    rw [otgGroup_eq_specGroup qts data tb hne htb j]

/-- Witness for C2 at `T = [0 s, 3600 s]`, `V = [1, 2]`, `time_bins = 2`. -/
theorem c2_witness :
    (([0, 3600] : List ℚ) ≠ []) ∧ 2 ≤ 2 ∧
    (∃ YS, overTimeRaw [some (1:ℚ), some 2] (([0, 3600] : List ℚ).map some) 2 =
        some ((otgEdgesQ [0, 3600] 2).map some, YS) ∧
      YS.length = 5 ∧
      (∀ v ∈ otgHoursQ [0, 3600],
        ((otgEdgesQ [0, 3600] 2).map some).getD
          ((otgEdgesQ [0, 3600] 2).countP (fun e => decide (e < v))) none =
          leastEdgeGE (otgEdgesQ [0, 3600] 2) v) ∧
      (∀ j, j < 2 → ∀ k, k < 5 →
        (YS.getD k []).getD j none =
          (if specGroup [0, 3600] [some (1:ℚ), some 2] (otgEdgesQ [0, 3600] 2) j = []
           then none
           else npPercentile (specGroup [0, 3600] [some (1:ℚ), some 2]
             (otgEdgesQ [0, 3600] 2) j) (percentileList.getD k 0)))) :=
  ⟨by simp, by omega, c2_binning_semantics [0, 3600] [some 1, some 2] 2 (by simp) (by omega)⟩

theorem otgHoursQ_c7 : otgHoursQ [0, 3600, 3600] = [0, 1, 1] := by
  unfold otgHoursQ
  norm_num

theorem otgEdgesQ_c7 : otgEdgesQ [0, 3600, 3600] 2 = [0, 1] := by
  unfold otgEdgesQ
  rw [otgHoursQ_c7]
  have hmin : pyMin [(0:ℚ), 1, 1] = 0 := by
    show List.foldl min (0:ℚ) [1, 1] = 0
    norm_num [List.foldl, min_def]
  have hmax : pyMax [(0:ℚ), 1, 1] = 1 := by
    show List.foldl max (0:ℚ) [1, 1] = 1
    norm_num [List.foldl, max_def]
  rw [hmin, hmax]
  unfold linspaceQ
  rw [if_neg (by omega)]
  have h4 : List.range 2 = [0, 1] := rfl
  rw [h4]
  norm_num

/-- Claim C7 counterexample: in the TimeBinner NaNs are not dropped from
the data vector: with `V = [1, NaN, 3]`, `T = [0 s, 3600 s, 3600 s]` and
2 bins, the second bin holds `[NaN, 3]` and every percentile output for
it is NaN, although the bin contains the non-NaN observation `3` (whose
percentile alone would be `3`): the NaN was passed into `np.percentile`
rather than excluded. -/
theorem c7_counterexample :
    overTimeRaw [some (1:ℚ), none, some 3] (([0, 3600, 3600] : List ℚ).map some) 2 =
      some ([some 0, some 1],
        [[some 1, none], [some 1, none], [some 1, none], [some 1, none],
         [some 1, none]]) ∧
    npPercentile [some (3:ℚ)] 50 = some 3 ∧
    npPercentile [none, some (3:ℚ)] 50 = none := by
  refine ⟨?_, ?_, ?_⟩
  · rw [overTimeRaw_map_some [0, 3600, 3600] [some 1, none, some 3] 2 (by simp) (by omega)]
    rw [otgEdgesQ_c7, otgHoursQ_c7]
    norm_num [percentileList, otgGroup, npPercentile, dropna, sortedQ,
      List.insertionSort, List.orderedInsert, quantileSorted, List.getD]
    have hfm : (List.filterMap Prod.snd
        [((some (0:ℚ) : RVal), (some (1:ℚ) : RVal))]) = [1] := rfl
    rw [hfm]
    norm_num
    simp
  · norm_num [npPercentile, dropna, sortedQ, List.insertionSort,
      List.orderedInsert, quantileSorted, List.getD]
  · norm_num [npPercentile]

/-- Claim C7 amended: NaNs are dropped before quantile computation in
the QuantileSummarizer (`_precompute_boxplot_values` depends only on the
non-NaN values), but the TimeBinner does not drop them: a NaN data value
in a bin is passed into `np.percentile`, which then returns NaN for that
bin at every percentile. -/
theorem c7_amended :
    (∀ y : List RVal, precompute_boxplot_values y =
       precompute_boxplot_values ((dropna y).map some)) ∧
    (∀ l : List RVal, ∀ q : ℚ, none ∈ l → npPercentile l q = none) := by
  constructor
  · intro y
    unfold precompute_boxplot_values
    rw [dropna_map_some]
  · intro l q hl
    unfold npPercentile
    have hany : l.any Option.isNone = true := by
      rw [List.any_eq_true]
      exact ⟨none, hl, rfl⟩
    rw [hany]
    simp

/-- Witness for the amended C7: `np.percentile` on a bin containing a
NaN returns NaN for the median. -/
theorem c7_amended_witness :
    (none ∈ ([none, some (3:ℚ)] : List RVal)) ∧
    npPercentile [none, some (3:ℚ)] 50 = none :=
  ⟨by simp, c7_amended.2 [none, some 3] 50 (by simp)⟩
